import Mathlib

/-!
Verification of the dinoclib DFIR-Orc extraction module (src/dinoclib/dfir_orc.py).

The Python module is shallowly embedded here.  Filesystem state is an
association list from paths (component lists, relative to the destination
root) to nodes (regular file with its byte content, or directory).  The
byte content of an archive member is modelled by the decoded view the code
consumes through its delegated external capabilities (7z decoding, CSV
tokenizing): opaque bytes, a GetThis manifest table, a volstats table, or a
nested archive.  Python `str` operations used by the module are embedded as
character-list functions with identical semantics on the inputs the module
feeds them.
-/

/-- Python str.replace where the pattern is the single backslash character:
every backslash (code 92) becomes a forward slash (code 47).  This models
the `.replace(chr92, chr47)` normalization in `_parse_getthis`. -/
def normSlashes (s : String) : String :=
  ⟨s.data.map (fun c => if c = Char.ofNat 92 then Char.ofNat 47 else c)⟩

/-- Character-list core of Python str.replace: leftmost, non-overlapping
replacement of `pat` by `rep`.  The extra `Nat` argument is a structural
bound, always called with the length of the subject string, which is
sufficient fuel because each step consumes at least one character. -/
def replChars (pat rep : List Char) : Nat → List Char → List Char
  | _, [] => []
  | 0, s => s
  | Nat.succ n, c :: rest =>
    if pat.isPrefixOf (c :: rest) then
      rep ++ replChars pat rep n (List.drop (pat.length - 1) rest)
    else
      c :: replChars pat rep n rest

/-- Python str.replace(pat, rep) for a non-empty pattern (the module only
calls it with a volume-id pattern; the Python empty-pattern corner case is
not exercised and is mapped to the identity here). -/
def strReplace (s pat rep : String) : String :=
  if pat.data.isEmpty then s
  else ⟨replChars pat.data rep.data s.data.length s.data⟩

/-- Python str.endswith. -/
def strEndsWith (s suffix : String) : Bool :=
  suffix.data.isSuffixOf s.data

/-- Python str.startswith. -/
def strStartsWith (s pre : String) : Bool :=
  pre.data.isPrefixOf s.data

/-- Python s[n:] (drop the first n characters). -/
def strDrop (s : String) (n : Nat) : String :=
  ⟨s.data.drop n⟩

/-- Python s[:-n] (drop the last n characters; empty when len(s) <= n). -/
def strDropRight (s : String) (n : Nat) : String :=
  ⟨s.data.take (s.data.length - n)⟩

/-- Python s[:n] (take the first n characters); s[0] for a non-empty s is
strTake s 1. -/
def strTake (s : String) (n : Nat) : String :=
  ⟨s.data.take n⟩

/-- A filesystem path as its list of components, relative to the
destination root passed to `extract`. -/
abbrev FPath := List String

/-- Splitting a string on the forward-slash separator, keeping empty
groups (Python str.split semantics on one character). -/
def splitSlash : List Char → List (List Char)
  | [] => [[]]
  | c :: rest =>
    let r := splitSlash rest
    if c = Char.ofNat 47 then [] :: r
    else
      match r with
      | g :: gs => (c :: g) :: gs
      | [] => [[c]]

/-- The components pathlib gives to a relative string argument of
Path/joinpath: split on the separator and discard empty components. -/
def pathParts (s : String) : FPath :=
  ((splitSlash s.data).filter (fun g => ¬ g.isEmpty)).map (fun g => ⟨g⟩)

/-- One row of the GetThis.csv sample manifest, as tokenized by the
delegated csv.DictReader capability (columns used by `_parse_getthis`). -/
structure GetThisRow where
  SampleName : String
  VolumeID : String
  SnapshotID : String
  FullName : String

/-- One row of a volstats.csv table, as tokenized by the delegated
csv.DictReader capability (columns used by `_rename_volumes`). -/
structure VolStatsRow where
  VolumeID : String
  MountPoint : String

/-- The all-zero snapshot identifier recognized by `_root_folder_name`. -/
def zeroSnapshot : String := "\x7b00000000-0000-0000-0000-000000000000\x7d"

/-- Embedding of `_root_folder_name`: the volume id alone for the all-zero
snapshot id, otherwise the "VolumeID (vss SnapshotID)" form. -/
def root_folder_name (volume_id snapshot_id : String) : String :=
  if snapshot_id = zeroSnapshot then volume_id
  else volume_id ++ " (vss " ++ snapshot_id ++ ")"

mutual

/-- Content of one archive member, by the decoded view the module consumes
through its delegated external capabilities: opaque bytes, a GetThis
manifest table, a volstats table, or a nested (possibly password-protected)
7z archive.  `password = none` models an unprotected archive. -/
inductive MemberData : Type where
  | raw (bytes : String)
  | manifest (rows : List GetThisRow)
  | volstats (rows : List VolStatsRow)
  | arch (password : Option String) (members : MemberList)

/-- The member listing of an archive in order (`readall()` mapping of
member name to content). -/
inductive MemberList : Type where
  | nil
  | cons (name : String) (data : MemberData) (rest : MemberList)

end

/-- The member listing as a plain list of (name, content) pairs. -/
def MemberList.toList : MemberList → List (String × MemberData)
  | .nil => []
  | .cons n d rest => (n, d) :: rest.toList

/-- Dictionary access `files[name]` / `name in files.keys()`: first entry
with the given member name. -/
def findMember : MemberList → String → Option MemberData
  | .nil, _ => none
  | .cons n d rest, key => if n = key then some d else findMember rest key

/-- A node of the destination tree: a regular file with its content, or a
directory. -/
inductive FSNode : Type where
  | file (data : MemberData)
  | dir

/-- The destination tree under the destination root: an association list
from paths to nodes, looked up first-match. -/
abbrev FS := List (FPath × FSNode)

/-- Lookup of the node at a path (first match wins). -/
def fsLookup : FS → FPath → Option FSNode
  | [], _ => none
  | (q, n) :: rest, p => if q = p then some n else fsLookup rest p

/-- pathlib Path.is_file: the path is present and is a regular file. -/
def fsIsFile (fs : FS) (p : FPath) : Bool :=
  match fsLookup fs p with
  | some (.file _) => true
  | _ => false

/-- The chain of ancestor directories that
`file_path.parent.mkdir(parents=True, exist_ok=True)` creates: every proper
non-empty prefix of the path, shortest first. -/
def ancestors (p : FPath) : List FPath :=
  (List.range (p.length - 1)).map (fun i => p.take (i + 1))

/-- Directory-chain creation (mkdir with parents=True, exist_ok=True):
an existing directory is accepted, a missing one is created, and a
non-directory entry in the chain raises an OSError, modelled by the false
flag; directories created before the failure point persist. -/
def mkdirChain : FS → List FPath → FS × Bool
  | fs, [] => (fs, true)
  | fs, p :: rest =>
    match fsLookup fs p with
    | some (.file _) => (fs, false)
    | some .dir => mkdirChain fs rest
    | none => mkdirChain ((p, FSNode.dir) :: fs) rest

/-- Embedding of `_write_file`: refuse (False) when the destination is
already a regular file; create the parent directory chain; a failure there
or a directory sitting at the destination is the caught OSError/Exception
path, returning False; otherwise the file is created and True returned. -/
def write_file (fs : FS) (p : FPath) (content : MemberData) : FS × Bool :=
  if fsIsFile fs p then (fs, false)
  else
    match mkdirChain fs (ancestors p) with
    | (fs1, false) => (fs1, false)
    | (fs1, true) =>
      match fsLookup fs1 p with
      | some .dir => (fs1, false)
      | _ => ((p, FSNode.file content) :: fs1, true)

/-- The manifest mapping built by `_parse_getthis`: sample name (separator
normalized) to relative destination path. -/
abbrev Manifest := List (String × FPath)

/-- Mapping lookup (first match wins; `_parse_getthis` conses later rows in
front, so the last row with a given name is found first). -/
def mapLookup : Manifest → String → Option FPath
  | [], _ => none
  | (k, v) :: rest, key => if k = key then some v else mapLookup rest key

/-- Destination path recorded for one manifest row:
Path(_root_folder_name(VolumeID, SnapshotID), FullName with backslashes
normalized and its first character dropped). -/
def getthisDest (row : GetThisRow) : FPath :=
  pathParts (root_folder_name row.VolumeID row.SnapshotID) ++
    pathParts (strDrop (normSlashes row.FullName) 1)

/-- Embedding of `_parse_getthis`: fold the rows into the mapping, a later
row with the same (normalized) SampleName shadowing an earlier one. -/
def parse_getthis (rows : List GetThisRow) : Manifest :=
  rows.foldl (fun m row => (normSlashes row.SampleName, getthisDest row) :: m) []

/-- The mapping the extractor builds for an archive: parse the GetThis.csv
member when present and tabular, else the empty mapping. -/
def manifestOf (ms : MemberList) : Manifest :=
  match findMember ms "GetThis.csv" with
  | some (.manifest rows) => parse_getthis rows
  | _ => []

/-- The destination-classification chain of the extract loop, evaluated in
source order: manifest mapping, then the .log suffix, then the two
well-known names, then the .7z suffix (none: handled by recursion, no file
written), then the commands default. -/
def resolveDest (mapping : Manifest) (archiveName fn : String) : Option FPath :=
  match mapLookup mapping fn with
  | some rel => some rel
  | none =>
    if strEndsWith fn ".log" then
      some (["orc_outputs", "logs"] ++ pathParts fn)
    else if fn = "GetThis.csv" ∨ fn = "Statistics.json" then
      some (["orc_outputs", "logs"] ++ pathParts (strDropRight archiveName 3 ++ "_" ++ fn))
    else if strEndsWith fn ".7z" then
      none
    else
      some (["orc_outputs", "commands"] ++ pathParts fn)

/-- One line of non_extracted.log: archive name, member name, attempted
destination. -/
structure LogEntry where
  archive : String
  member : String
  dest : FPath
deriving DecidableEq

/-- The mutable state the extractor threads: the destination tree and the
append-only failure log. -/
structure ExtractState where
  fs : FS
  log : List LogEntry

/-- Writing one resolved member: on a `_write_file` failure one line is
appended to the failure log and traversal continues. -/
def writeStep (archiveName : String) (st : ExtractState) (fn : String) (d : FPath)
    (c : MemberData) : ExtractState :=
  let r := write_file st.fs d c
  if r.2 then ⟨r.1, st.log⟩ else ⟨r.1, st.log ++ [⟨archiveName, fn, d⟩]⟩

/-- Password acceptance of the open/retry sequence: an unprotected archive
opens directly; a protected one is reopened with the caller-supplied
default password and opens exactly when that password is the right one. -/
def pwMatches : Option String → String → Bool
  | none, _ => true
  | some p, given => p = given

/-- The Container Reader contract: the member listing when the source is a
well-formed archive that the (possibly retried) open accepts, none for the
Bad7zFile path. -/
def openArchive (c : MemberData) (pw : String) : Option MemberList :=
  match c with
  | .arch pwOpt ms => if pwMatches pwOpt pw then some ms else none
  | _ => none

/-- Decision of one rename attempt: given the old and new top-level entry
name and the current tree, whether os.rename succeeds.  The outcome of the
underlying OS call is outside the module, so it is a parameter. -/
def RenameOracle : Type := String → String → FS → Bool

/-- A successful rename of the top-level entry `oldName` to `newName`
relocates the whole subtree below it. -/
def renameTop (fs : FS) (oldName newName : String) : FS :=
  fs.map (fun e =>
    match e.1 with
    | h :: t => if h = oldName then (newName :: t, e.2) else e
    | [] => e)

/-- glob(volumeId + "*") over the destination root: the names of top-level
entries that start with the volume id, in tree order. -/
def topMatches (fs : FS) (volId : String) : List String :=
  fs.filterMap (fun e =>
    match e.1 with
    | [h] => if strStartsWith h volId then some h else none
    | _ => none)

/-- The inner rename loop of `_rename_volumes` for one row: each matching
top-level name has the volume id replaced by the mount-point letter and is
renamed.  There is no exception handler in the source, so a failed rename
aborts the whole pass (false flag); renames already performed persist. -/
def renameMatches (ok : RenameOracle) (volId repl : String) :
    List String → FS → FS × Bool
  | [], fs => (fs, true)
  | m :: rest, fs =>
    let nn := strReplace m volId repl
    if ok m nn fs then renameMatches ok volId repl rest (renameTop fs m nn)
    else (fs, false)

/-- The row loop of `_rename_volumes`: rows with an empty MountPoint are
skipped; the uncaught exception of a failed rename aborts the remaining
rows. -/
def renameRows (ok : RenameOracle) : List VolStatsRow → FS → FS × Bool
  | [], fs => (fs, true)
  | r :: rest, fs =>
    if r.MountPoint = "" then renameRows ok rest fs
    else
      let res := renameMatches ok r.VolumeID (strTake r.MountPoint 1)
        (topMatches fs r.VolumeID) fs
      if res.2 then renameRows ok rest res.1 else res

/-- glob("**" / "volstats.csv"): the decoded rows of every volstats.csv
file anywhere under the destination root, in tree order. -/
def volstatsTables (fs : FS) : List (List VolStatsRow) :=
  fs.filterMap (fun e =>
    match e with
    | (p, .file (.volstats rows)) =>
      if p.getLast? = some "volstats.csv" then some rows else none
    | _ => none)

/-- The outer loop of `_rename_volumes` over the volstats files; the
uncaught exception of a failed rename aborts the remaining files. -/
def renameAllTables (ok : RenameOracle) : List (List VolStatsRow) → FS → FS × Bool
  | [], fs => (fs, true)
  | rows :: rest, fs =>
    let res := renameRows ok rows fs
    if res.2 then renameAllTables ok rest res.1 else res

/-- Embedding of `_rename_volumes`: locate the volstats tables under the
tree and apply their renames; false when a rename raised. -/
def rename_volumes (ok : RenameOracle) (fs : FS) : FS × Bool :=
  renameAllTables ok (volstatsTables fs) fs

/-- Outcome of one `extract` call: a returned boolean, or an exception that
escaped (the unhandled rename failure). -/
inductive ExtractResult : Type where
  | ok (b : Bool)
  | exn
deriving DecidableEq

mutual

/-- Body of `extract` for an already-supplied archive content: the
Bad7zFile path returns False; otherwise the GetThis mapping is built, every
member is processed, and, when volume renaming is enabled, a rename failure
escapes as an exception after the member writes are done. -/
def extractContent (c : MemberData) (pw : String) (rv : Bool) (archiveName : String)
    (ok : RenameOracle) (st : ExtractState) : ExtractState × ExtractResult :=
  match c with
  | .arch pwOpt ms =>
    if pwMatches pwOpt pw then
      let st1 := processMembers (manifestOf ms) pw archiveName ok st ms
      if rv then
        let r := rename_volumes ok st1.fs
        (⟨r.1, st1.log⟩, if r.2 then .ok true else .exn)
      else (st1, .ok true)
    else (st, .ok false)
  | _ => (st, .ok false)

/-- The member loop of `extract`: each member is classified; a .7z
classification recurses with renaming disabled and the member name as the
archive name, discarding the recursive result; any other classification
attempts the write, logging a failure; the loop always continues with the
remaining members. -/
def processMembers (mapping : Manifest) (pw archiveName : String) (ok : RenameOracle)
    (st : ExtractState) : MemberList → ExtractState
  | .nil => st
  | .cons fn c rest =>
    match resolveDest mapping archiveName fn with
    | none =>
      processMembers mapping pw archiveName ok
        (extractContent c pw false fn ok st).1 rest
    | some d =>
      processMembers mapping pw archiveName ok (writeStep archiveName st fn d c) rest

end

/-- The archive source of an `extract` call: a filesystem path (whose file
name is used as the archive name) or an in-memory buffer (the recursive
case, named by the archive_name argument). -/
inductive Source : Type where
  | path (name : String) (data : MemberData)
  | buffer (data : MemberData)

/-- The archive bytes behind a source. -/
def srcContent : Source → MemberData
  | .path _ d => d
  | .buffer d => d

/-- Line 126 of the source: the path name for a Path source, the
caller-supplied archive_name for a buffer. -/
def sourceName : Source → String → String
  | .path n _, _ => n
  | .buffer _, a => a

/-- Embedding of `extract(archive_path, destination_path, default_password,
rename_volumes, archive_name)`; the destination root is the implicit root
of the FS component of the state. -/
def extract (src : Source) (pw : String) (rv : Bool) (archiveName : String)
    (ok : RenameOracle) (st : ExtractState) : ExtractState × ExtractResult :=
  extractContent (srcContent src) pw rv (sourceName src archiveName) ok st

/-- A tree extends another when every entry of the smaller one is present,
with the same node, in the larger one. -/
def FSExt (fs fs2 : FS) : Prop :=
  ∀ q m, fsLookup fs q = some m → fsLookup fs2 q = some m

/-- State extension: the tree extends and the failure log keeps every
earlier line. -/
def stExt (st st2 : ExtractState) : Prop :=
  FSExt st.fs st2.fs ∧ ∀ e, e ∈ st.log → e ∈ st2.log

/-- Modelled from the spec: the "archiveBaseNameWithoutExtension" of
classification rule 3 in §4.3, the archive name with its (dot-separated)
extension removed, here for comparison with what the code computes
(`archive_name[:-3]`). -/
def specBaseNameWithoutExtension (s : String) : String :=
  if s.data.contains (Char.ofNat 46) then
    ⟨(((s.data.reverse.dropWhile (fun c => c ≠ Char.ofNat 46)).drop 1)).reverse⟩
  else s

/-- The manifest row of the §8 scenario: SampleName=sample1, VolumeID=V1,
all-zero SnapshotID, FullName=backslash-Users-backslash-a.txt. -/
def scenRow : GetThisRow :=
  ⟨"sample1", "V1", zeroSnapshot, "\\Users\\a.txt"⟩

/-- The §8 scenario archive: GetThis.csv with the one row above, and a
member sample1 with content "hello". -/
def scenArchive : MemberData :=
  .arch none (.cons "GetThis.csv" (.manifest [scenRow])
    (.cons "sample1" (.raw "hello") .nil))

/-- A concrete rename-outcome oracle: os.rename succeeds exactly when no
top-level entry already carries the target name. -/
def okFresh : RenameOracle := fun _ nn fs => !(fsLookup fs [nn]).isSome

/-- An oracle under which every rename succeeds. -/
def okAll : RenameOracle := fun _ _ _ => true

/-- An oracle under which exactly the rename of the top-level entry V1
fails (e.g. permission denied on that one directory). -/
def okFailV1 : RenameOracle := fun old _ _ => old != "V1"

/-- The scenario archive extended with a volstats.csv member mapping V1 to
mount point C:, so that the first run renames the V1 volume folder. -/
def idemArchive : MemberData :=
  .arch none (.cons "GetThis.csv" (.manifest [scenRow])
    (.cons "sample1" (.raw "hello")
      (.cons "volstats.csv" (.volstats [⟨"V1", "C:"⟩]) .nil)))

/-- The manifest row of the nested-container scenario of §8. -/
def innerRow : GetThisRow :=
  ⟨"sampleX", "VX", zeroSnapshot, "\\Windows\\b.txt"⟩

/-- The nested sub-archive of the §8 scenario: its own GetThis.csv mapping
sampleX, and the member sampleX with content "bb". -/
def innerArchive : MemberData :=
  .arch none (.cons "GetThis.csv" (.manifest [innerRow])
    (.cons "sampleX" (.raw "bb") .nil))

/-- The outer archive of the §8 nested-container scenario, holding only
the member inner.7z. -/
def outerArchive : MemberData :=
  .arch none (.cons "inner.7z" innerArchive .nil)

/-- A destination tree holding a volstats table with two rows whose volume
ids each match one top-level folder. -/
def renameFs0 : FS :=
  [ (["orc_outputs"], FSNode.dir),
    (["orc_outputs", "commands"], FSNode.dir),
    (["orc_outputs", "commands", "volstats.csv"],
      FSNode.file (.volstats [⟨"V1", "C:"⟩, ⟨"V2", "D:"⟩])),
    (["V1"], FSNode.dir),
    (["V2"], FSNode.dir) ]

/-! ### Basic lemmas about the filesystem primitives -/

theorem memberListInduct (motive : MemberList → Prop) (h1 : motive .nil)
    (h2 : ∀ n d rest, motive rest → motive (.cons n d rest)) : ∀ ms, motive ms
  | .nil => h1
  | .cons n d rest => h2 n d rest (memberListInduct motive h1 h2 rest)

theorem fsLookup_cons (r : FPath) (n : FSNode) (fs : FS) (q : FPath) :
    fsLookup ((r, n) :: fs) q = if r = q then some n else fsLookup fs q := rfl

theorem length_lt_of_mem_ancestors {p q : FPath} (h : q ∈ ancestors p) :
    q.length < p.length := by
  simp only [ancestors, List.mem_map, List.mem_range] at h
  obtain ⟨i, hi, rfl⟩ := h
  simp only [List.length_take]
  omega

theorem self_not_mem_ancestors (p : FPath) : p ∉ ancestors p := by
  intro h
  exact absurd (length_lt_of_mem_ancestors h) (by omega)

theorem mkdirChain_preserves : ∀ (ps : List FPath) (fs : FS) (q : FPath) (m : FSNode),
    fsLookup fs q = some m → fsLookup (mkdirChain fs ps).1 q = some m := by
  intro ps
  induction ps with
  | nil => intro fs q m h; exact h
  | cons p rest ih =>
    intro fs q m h
    unfold mkdirChain
    cases hl : fsLookup fs p with
    | none =>
      simp only
      apply ih
      rw [fsLookup_cons]
      by_cases hpq : p = q
      · rw [hpq] at hl; rw [hl] at h; exact absurd h (by simp)
      · simp [hpq, h]
    | some nd =>
      cases nd with
      | file d => simp only; exact h
      | dir => simp only; exact ih fs q m h

theorem mkdirChain_lookup_notmem : ∀ (ps : List FPath) (fs : FS) (q : FPath),
    q ∉ ps → fsLookup (mkdirChain fs ps).1 q = fsLookup fs q := by
  intro ps
  induction ps with
  | nil => intro fs q _; rfl
  | cons p rest ih =>
    intro fs q hq
    have hpq : p ≠ q := fun h => hq (h ▸ List.mem_cons_self p rest)
    have hqrest : q ∉ rest := fun h => hq (List.mem_cons_of_mem p h)
    unfold mkdirChain
    cases hl : fsLookup fs p with
    | none =>
      simp only
      rw [ih ((p, FSNode.dir) :: fs) q hqrest, fsLookup_cons]
      simp [hpq]
    | some nd =>
      cases nd with
      | file d => rfl
      | dir => simp only; exact ih fs q hqrest

theorem mkdirChain_idem : ∀ (ps : List FPath) (fs fs1 : FS) (b : Bool),
    mkdirChain fs ps = (fs1, b) → mkdirChain fs1 ps = (fs1, b) := by
  intro ps
  induction ps with
  | nil =>
    intro fs fs1 b h
    unfold mkdirChain at h ⊢
    exact h ▸ (by cases h; rfl)
  | cons p rest ih =>
    intro fs fs1 b h
    unfold mkdirChain at h
    cases hl : fsLookup fs p with
    | none =>
      rw [hl] at h
      simp only at h
      have hdir : fsLookup (mkdirChain ((p, FSNode.dir) :: fs) rest).1 p = some FSNode.dir := by
        apply mkdirChain_preserves
        rw [fsLookup_cons]
        simp
      rw [h] at hdir
      unfold mkdirChain
      rw [hdir]
      simp only
      exact ih ((p, FSNode.dir) :: fs) fs1 b h
    | some nd =>
      cases nd with
      | file d =>
        rw [hl] at h
        simp only at h
        cases h
        unfold mkdirChain
        rw [hl]
      | dir =>
        rw [hl] at h
        simp only at h
        have hdir : fsLookup fs1 p = some FSNode.dir := by
          have := mkdirChain_preserves rest fs p FSNode.dir hl
          rw [h] at this
          exact this
        unfold mkdirChain
        rw [hdir]
        simp only
        exact ih fs fs1 b h

theorem mkdirChain_stable : ∀ (ps : List FPath) (fs fs2 : FS) (b : Bool),
    mkdirChain fs ps = (fs, b) → FSExt fs fs2 → mkdirChain fs2 ps = (fs2, b) := by
  intro ps
  induction ps with
  | nil =>
    intro fs fs2 b h _
    unfold mkdirChain at h ⊢
    cases h; rfl
  | cons p rest ih =>
    intro fs fs2 b h hext
    unfold mkdirChain at h
    cases hl : fsLookup fs p with
    | none =>
      rw [hl] at h
      simp only at h
      exfalso
      have hdir : fsLookup (mkdirChain ((p, FSNode.dir) :: fs) rest).1 p = some FSNode.dir := by
        apply mkdirChain_preserves
        rw [fsLookup_cons]
        simp
      rw [h] at hdir
      simp only at hdir
      rw [hl] at hdir
      exact absurd hdir (by simp)
    | some nd =>
      cases nd with
      | file d =>
        rw [hl] at h
        simp only at h
        cases h
        unfold mkdirChain
        rw [hext p (FSNode.file d) hl]
      | dir =>
        rw [hl] at h
        simp only at h
        unfold mkdirChain
        rw [hext p FSNode.dir hl]
        simp only
        exact ih fs fs2 b h hext

/-! ### Lemmas about `write_file` -/

theorem write_file_isFile (fs : FS) (p : FPath) (c : MemberData)
    (h : fsIsFile fs p = true) : write_file fs p c = (fs, false) := by
  unfold write_file
  rw [h]
  simp

theorem write_file_preserves (fs : FS) (p : FPath) (c : MemberData) (q : FPath) (m : FSNode)
    (h : fsLookup fs q = some m) : fsLookup (write_file fs p c).1 q = some m := by
  unfold write_file
  by_cases hf : fsIsFile fs p
  · simp only [hf, if_true]; exact h
  · simp only [hf, if_false, Bool.false_eq_true]
    rcases hmk : mkdirChain fs (ancestors p) with ⟨fs1, b⟩
    have hpres := mkdirChain_preserves (ancestors p) fs q m h
    rw [hmk] at hpres
    simp only at hpres
    cases b with
    | false => simp only; exact hpres
    | true =>
      simp only
      cases hl : fsLookup fs1 p with
      | none =>
        simp only [fsLookup_cons]
        by_cases hpq : p = q
        · rw [hpq] at hl; rw [hl] at hpres; exact absurd hpres (by simp)
        · simp [hpq, hpres]
      | some nd =>
        have hlp : fsLookup fs1 p = fsLookup fs p := by
          have h2 := mkdirChain_lookup_notmem (ancestors p) fs p (self_not_mem_ancestors p)
          rw [hmk] at h2
          exact h2
        cases nd with
        | dir => simp only; exact hpres
        | file d =>
          exfalso
          rw [hl] at hlp
          have : fsIsFile fs p = true := by
            unfold fsIsFile
            rw [← hlp]
          exact hf this

theorem write_file_true_lookup (fs : FS) (p : FPath) (c : MemberData) (fs1 : FS)
    (h : write_file fs p c = (fs1, true)) : fsLookup fs1 p = some (FSNode.file c) := by
  unfold write_file at h
  by_cases hf : fsIsFile fs p
  · rw [hf] at h; simp at h
  · simp only [hf, if_false, Bool.false_eq_true] at h
    rcases hmk : mkdirChain fs (ancestors p) with ⟨fsm, b⟩
    rw [hmk] at h
    cases b with
    | false => simp at h
    | true =>
      simp only at h
      cases hl : fsLookup fsm p with
      | none =>
        rw [hl] at h
        simp only at h
        cases h
        rw [fsLookup_cons]
        simp
      | some nd =>
        cases nd with
        | dir => rw [hl] at h; simp at h
        | file d =>
          rw [hl] at h
          simp only at h
          cases h
          rw [fsLookup_cons]
          simp

theorem write_file_cases (fs : FS) (p : FPath) (c : MemberData) :
    (fsIsFile fs p = true ∧ write_file fs p c = (fs, false)) ∨
    (∃ fsm, fsIsFile fs p = false ∧ mkdirChain fs (ancestors p) = (fsm, false) ∧
      write_file fs p c = (fsm, false)) ∨
    (∃ fsm, fsIsFile fs p = false ∧ mkdirChain fs (ancestors p) = (fsm, true) ∧
      fsLookup fsm p = some FSNode.dir ∧ write_file fs p c = (fsm, false)) ∨
    (∃ fsm, fsIsFile fs p = false ∧ mkdirChain fs (ancestors p) = (fsm, true) ∧
      fsLookup fsm p ≠ some FSNode.dir ∧
      write_file fs p c = ((p, FSNode.file c) :: fsm, true)) := by
  by_cases hf : fsIsFile fs p
  · exact Or.inl ⟨hf, write_file_isFile fs p c hf⟩
  · have hneg : fsIsFile fs p = false := by simpa using hf
    rcases hmk : mkdirChain fs (ancestors p) with ⟨fsm, b⟩
    have hw : write_file fs p c =
        (match (fsm, b) with
          | (fs1, false) => (fs1, false)
          | (fs1, true) =>
            match fsLookup fs1 p with
            | some .dir => (fs1, false)
            | _ => ((p, FSNode.file c) :: fs1, true)) := by
      unfold write_file
      rw [hneg, hmk]
      simp
    cases b with
    | false => exact Or.inr (Or.inl ⟨fsm, hneg, rfl, hw⟩)
    | true =>
      cases hl : fsLookup fsm p with
      | none =>
        refine Or.inr (Or.inr (Or.inr ⟨fsm, hneg, rfl, by rw [hl]; simp, ?_⟩))
        rw [hw]
        simp only
        rw [hl]
      | some nd =>
        cases nd with
        | dir =>
          refine Or.inr (Or.inr (Or.inl ⟨fsm, hneg, rfl, hl, ?_⟩))
          rw [hw]
          simp only
          rw [hl]
        | file d =>
          refine Or.inr (Or.inr (Or.inr ⟨fsm, hneg, rfl, by rw [hl]; simp, ?_⟩))
          rw [hw]
          simp only
          rw [hl]

theorem fsIsFile_eq_of_lookup_eq {fs fs2 : FS} {p : FPath}
    (h : fsLookup fs p = fsLookup fs2 p) : fsIsFile fs p = fsIsFile fs2 p := by
  unfold fsIsFile
  rw [h]

theorem write_file_retry (fs : FS) (p : FPath) (c : MemberData) (fs1 : FS) (r : Bool)
    (h : write_file fs p c = (fs1, r)) : write_file fs1 p c = (fs1, false) := by
  rcases write_file_cases fs p c with ⟨hf, heq⟩ | ⟨fsm, hneg, hmk, heq⟩ |
    ⟨fsm, hneg, hmk, hl, heq⟩ | ⟨fsm, hneg, hmk, hl, heq⟩
  · rw [heq] at h
    injection h with h1 h2
    subst h1
    exact heq
  · rw [heq] at h
    injection h with h1 h2
    subst h1
    have hlp : fsLookup fsm p = fsLookup fs p := by
      have h2 := mkdirChain_lookup_notmem (ancestors p) fs p (self_not_mem_ancestors p)
      rw [hmk] at h2
      exact h2
    have hneg2 : fsIsFile fsm p = false := by
      rw [fsIsFile_eq_of_lookup_eq hlp]
      exact hneg
    unfold write_file
    rw [hneg2]
    simp only [Bool.false_eq_true, if_false]
    rw [mkdirChain_idem (ancestors p) fs fsm false hmk]
  · rw [heq] at h
    injection h with h1 h2
    subst h1
    have hneg2 : fsIsFile fsm p = false := by
      unfold fsIsFile
      rw [hl]
    unfold write_file
    rw [hneg2]
    simp only [Bool.false_eq_true, if_false]
    rw [mkdirChain_idem (ancestors p) fs fsm true hmk]
    simp only
    rw [hl]
  · rw [heq] at h
    injection h with h1 h2
    subst h1
    apply write_file_isFile
    unfold fsIsFile
    rw [fsLookup_cons]
    simp

theorem write_file_stable (fs fs2 : FS) (p : FPath) (c : MemberData)
    (h : write_file fs p c = (fs, false)) (hext : FSExt fs fs2) :
    write_file fs2 p c = (fs2, false) := by
  rcases write_file_cases fs p c with ⟨hf, heq⟩ | ⟨fsm, hneg, hmk, heq⟩ |
    ⟨fsm, hneg, hmk, hl, heq⟩ | ⟨fsm, hneg, hmk, hl, heq⟩
  · apply write_file_isFile
    unfold fsIsFile at hf ⊢
    cases hlk : fsLookup fs p with
    | none => rw [hlk] at hf; simp at hf
    | some nd =>
      cases nd with
      | dir => rw [hlk] at hf; simp at hf
      | file d => rw [hext p (FSNode.file d) hlk]
  · rw [heq] at h
    injection h with h1 h2
    subst h1
    by_cases hf2 : fsIsFile fs2 p
    · exact write_file_isFile fs2 p c hf2
    · have hneg2 : fsIsFile fs2 p = false := by simpa using hf2
      unfold write_file
      rw [hneg2]
      simp only [Bool.false_eq_true, if_false]
      rw [mkdirChain_stable (ancestors p) fsm fs2 false hmk hext]
  · rw [heq] at h
    injection h with h1 h2
    subst h1
    have hdir : fsLookup fs2 p = some FSNode.dir := hext p FSNode.dir hl
    have hneg2 : fsIsFile fs2 p = false := by
      unfold fsIsFile
      rw [hdir]
    unfold write_file
    rw [hneg2]
    simp only [Bool.false_eq_true, if_false]
    rw [mkdirChain_stable (ancestors p) fsm fs2 true hmk hext]
    simp only
    rw [hdir]
  · rw [heq] at h
    injection h with h1 h2
    exact Bool.noConfusion h2

/-! ### State extension through the member loop -/

theorem stExt_refl (st : ExtractState) : stExt st st :=
  ⟨fun _ _ h => h, fun _ h => h⟩

theorem stExt_trans {s1 s2 s3 : ExtractState} (h1 : stExt s1 s2) (h2 : stExt s2 s3) :
    stExt s1 s3 :=
  ⟨fun q m h => h2.1 q m (h1.1 q m h), fun e h => h2.2 e (h1.2 e h)⟩

theorem writeStep_extends (an : String) (st : ExtractState) (fn : String) (d : FPath)
    (c : MemberData) : stExt st (writeStep an st fn d c) := by
  unfold writeStep
  cases hw : (write_file st.fs d c).2 with
  | true =>
    simp only [hw, if_true]
    exact ⟨fun q m h => write_file_preserves st.fs d c q m h, fun e h => h⟩
  | false =>
    simp only [hw, Bool.false_eq_true, if_false]
    exact ⟨fun q m h => write_file_preserves st.fs d c q m h,
      fun e h => List.mem_append_left _ h⟩

theorem extendAux : ∀ n : Nat,
    (∀ c : MemberData, sizeOf c ≤ n → ∀ pw an ok st,
      stExt st (extractContent c pw false an ok st).1) ∧
    (∀ ms : MemberList, sizeOf ms ≤ n → ∀ mapping pw an ok st,
      stExt st (processMembers mapping pw an ok st ms)) := by
  intro n
  induction n with
  | zero =>
    constructor
    · intro c hc
      exfalso
      cases c <;> simp_arith at hc
    · intro ms hms
      exfalso
      cases ms <;> simp_arith at hms
  | succ n ih =>
    constructor
    · intro c hc pw an ok st
      cases c with
      | arch pwOpt ms =>
        by_cases hpw : pwMatches pwOpt pw
        · have he : extractContent (.arch pwOpt ms) pw false an ok st =
              (processMembers (manifestOf ms) pw an ok st ms, .ok true) := by
            simp [extractContent, hpw]
          rw [he]
          have hsz : sizeOf ms ≤ n := by simp_arith at hc; omega
          exact ih.2 ms hsz (manifestOf ms) pw an ok st
        · have hpw2 : pwMatches pwOpt pw = false := by simpa using hpw
          have he : extractContent (.arch pwOpt ms) pw false an ok st = (st, .ok false) := by
            simp [extractContent, hpw2]
          rw [he]
          exact stExt_refl st
      | raw s => exact stExt_refl st
      | manifest rows => exact stExt_refl st
      | volstats rows => exact stExt_refl st
    · intro ms hms mapping pw an ok st
      cases ms with
      | nil => exact stExt_refl st
      | cons fn c rest =>
        have hszc : sizeOf c ≤ n := by simp_arith at hms; omega
        have hszr : sizeOf rest ≤ n := by simp_arith at hms; omega
        cases hres : resolveDest mapping an fn with
        | none =>
          have he : processMembers mapping pw an ok st (.cons fn c rest) =
              processMembers mapping pw an ok (extractContent c pw false fn ok st).1 rest := by
            simp [processMembers, hres]
          rw [he]
          exact stExt_trans (ih.1 c hszc pw fn ok st)
            (ih.2 rest hszr mapping pw an ok (extractContent c pw false fn ok st).1)
        | some d =>
          have he : processMembers mapping pw an ok st (.cons fn c rest) =
              processMembers mapping pw an ok (writeStep an st fn d c) rest := by
            simp [processMembers, hres]
          rw [he]
          exact stExt_trans (writeStep_extends an st fn d c)
            (ih.2 rest hszr mapping pw an ok (writeStep an st fn d c))

theorem processMembers_extends (ms : MemberList) (mapping : Manifest) (pw an : String)
    (ok : RenameOracle) (st : ExtractState) :
    stExt st (processMembers mapping pw an ok st ms) :=
  (extendAux (sizeOf ms)).2 ms (Nat.le_refl _) mapping pw an ok st

theorem extractContent_extends (c : MemberData) (pw an : String) (ok : RenameOracle)
    (st : ExtractState) : stExt st (extractContent c pw false an ok st).1 :=
  (extendAux (sizeOf c)).1 c (Nat.le_refl _) pw an ok st

theorem FSExt_trans {a b c : FS} (h1 : FSExt a b) (h2 : FSExt b c) : FSExt a c :=
  fun q m h => h2 q m (h1 q m h)

theorem extractContent_flag (c : MemberData) (pw an : String) (ok : RenameOracle)
    (st : ExtractState) :
    (extractContent c pw false an ok st).2 = .ok (openArchive c pw).isSome := by
  cases c with
  | arch pwOpt ms =>
    by_cases hpw : pwMatches pwOpt pw
    · simp [extractContent, openArchive, hpw]
    · have hpw2 : pwMatches pwOpt pw = false := by simpa using hpw
      simp [extractContent, openArchive, hpw2]
  | raw s => simp [extractContent, openArchive]
  | manifest rows => simp [extractContent, openArchive]
  | volstats rows => simp [extractContent, openArchive]

theorem writeStep_fs (an : String) (st : ExtractState) (fn : String) (d : FPath)
    (c : MemberData) : (writeStep an st fn d c).fs = (write_file st.fs d c).1 := by
  cases hw : (write_file st.fs d c).2 <;> simp [writeStep, hw]

theorem writeStep_fail (an : String) (st : ExtractState) (fn : String) (d : FPath)
    (c : MemberData) (fsw : FS) (hw : write_file st.fs d c = (fsw, false)) :
    writeStep an st fn d c = ⟨fsw, st.log ++ [⟨an, fn, d⟩]⟩ := by
  unfold writeStep
  rw [hw]
  simp

theorem idemAux : ∀ n : Nat,
    (∀ c : MemberData, sizeOf c ≤ n → ∀ pw an ok st fs2 L,
      FSExt (extractContent c pw false an ok st).1.fs fs2 →
      (extractContent c pw false an ok ⟨fs2, L⟩).1.fs = fs2) ∧
    (∀ ms : MemberList, sizeOf ms ≤ n → ∀ mapping pw an ok st fs2 L,
      FSExt (processMembers mapping pw an ok st ms).fs fs2 →
      (processMembers mapping pw an ok ⟨fs2, L⟩ ms).fs = fs2 ∧
      (∀ fn c d, (fn, c) ∈ ms.toList → resolveDest mapping an fn = some d →
        (⟨an, fn, d⟩ : LogEntry) ∈ (processMembers mapping pw an ok ⟨fs2, L⟩ ms).log)) := by
  intro n
  induction n with
  | zero =>
    constructor
    · intro c hc
      exfalso
      cases c <;> simp_arith at hc
    · intro ms hms
      exfalso
      cases ms <;> simp_arith at hms
  | succ n ih =>
    constructor
    · intro c hc pw an ok st fs2 L hext
      cases c with
      | arch pwOpt ms =>
        by_cases hpw : pwMatches pwOpt pw
        · have he1 : ∀ s : ExtractState, extractContent (.arch pwOpt ms) pw false an ok s =
              (processMembers (manifestOf ms) pw an ok s ms, .ok true) := by
            intro s
            simp [extractContent, hpw]
          rw [he1] at hext
          rw [he1]
          have hsz : sizeOf ms ≤ n := by simp_arith at hc; omega
          exact (ih.2 ms hsz (manifestOf ms) pw an ok st fs2 L hext).1
        · have hpw2 : pwMatches pwOpt pw = false := by simpa using hpw
          have he1 : ∀ s : ExtractState, extractContent (.arch pwOpt ms) pw false an ok s =
              (s, .ok false) := by
            intro s
            simp [extractContent, hpw2]
          rw [he1]
      | raw s => rfl
      | manifest rows => rfl
      | volstats rows => rfl
    · intro ms hms mapping pw an ok st fs2 L hext
      cases ms with
      | nil =>
        refine ⟨rfl, ?_⟩
        intro fn c d hmem
        simp [MemberList.toList] at hmem
      | cons fn c rest =>
        have hszc : sizeOf c ≤ n := by simp_arith at hms; omega
        have hszr : sizeOf rest ≤ n := by simp_arith at hms; omega
        cases hres : resolveDest mapping an fn with
        | some d =>
          rcases hw : write_file st.fs d c with ⟨fsw, r⟩
          have hws1 : (writeStep an st fn d c).fs = fsw := by
            rw [writeStep_fs, hw]
          have he1 : processMembers mapping pw an ok st (.cons fn c rest) =
              processMembers mapping pw an ok (writeStep an st fn d c) rest := by
            simp [processMembers, hres]
          rw [he1] at hext
          have hextw : FSExt fsw fs2 := by
            apply FSExt_trans _ hext
            have h2 := (processMembers_extends rest mapping pw an ok (writeStep an st fn d c)).1
            rw [hws1] at h2
            exact h2
          have hretry : write_file fsw d c = (fsw, false) :=
            write_file_retry st.fs d c fsw r hw
          have hw2 : write_file fs2 d c = (fs2, false) :=
            write_file_stable fsw fs2 d c hretry hextw
          have hws2 : writeStep an ⟨fs2, L⟩ fn d c = ⟨fs2, L ++ [⟨an, fn, d⟩]⟩ :=
            writeStep_fail an ⟨fs2, L⟩ fn d c fs2 hw2
          have he2 : processMembers mapping pw an ok ⟨fs2, L⟩ (.cons fn c rest) =
              processMembers mapping pw an ok ⟨fs2, L ++ [⟨an, fn, d⟩]⟩ rest := by
            simp only [processMembers, hres]
            rw [hws2]
          have hih := ih.2 rest hszr mapping pw an ok (writeStep an st fn d c) fs2
            (L ++ [⟨an, fn, d⟩]) hext
          refine ⟨by rw [he2]; exact hih.1, ?_⟩
          intro fn2 c2 d2 hmem hres2
          rw [he2]
          rcases (by simpa [MemberList.toList] using hmem :
              (fn2 = fn ∧ c2 = c) ∨ (fn2, c2) ∈ rest.toList) with ⟨rfl, rfl⟩ | hmem2
          · have hd : d2 = d := by
              rw [hres] at hres2
              injection hres2 with h
              exact h.symm
            subst hd
            have hmono := (processMembers_extends rest mapping pw an ok
              ⟨fs2, L ++ [⟨an, fn2, d2⟩]⟩).2
            exact hmono _ (List.mem_append_right _ (List.mem_singleton.mpr rfl))
          · exact hih.2 fn2 c2 d2 hmem2 hres2
        | none =>
          have he1 : processMembers mapping pw an ok st (.cons fn c rest) =
              processMembers mapping pw an ok (extractContent c pw false fn ok st).1 rest := by
            simp [processMembers, hres]
          rw [he1] at hext
          have hextc : FSExt (extractContent c pw false fn ok st).1.fs fs2 := by
            apply FSExt_trans _ hext
            exact (processMembers_extends rest mapping pw an ok
              (extractContent c pw false fn ok st).1).1
          have hfs2 : (extractContent c pw false fn ok ⟨fs2, L⟩).1.fs = fs2 :=
            ih.1 c hszc pw fn ok st fs2 L hextc
          rcases hE : (extractContent c pw false fn ok ⟨fs2, L⟩).1 with ⟨f, l⟩
          rw [hE] at hfs2
          have hf : f = fs2 := hfs2
          subst hf
          have he2 : processMembers mapping pw an ok ⟨f, L⟩ (.cons fn c rest) =
              processMembers mapping pw an ok ⟨f, l⟩ rest := by
            simp only [processMembers, hres]
            rw [hE]
          have hih := ih.2 rest hszr mapping pw an ok
            (extractContent c pw false fn ok st).1 f l hext
          refine ⟨by rw [he2]; exact hih.1, ?_⟩
          intro fn2 c2 d2 hmem hres2
          rw [he2]
          rcases (by simpa [MemberList.toList] using hmem :
              (fn2 = fn ∧ c2 = c) ∨ (fn2, c2) ∈ rest.toList) with ⟨rfl, rfl⟩ | hmem2
          · rw [hres] at hres2
            exact absurd hres2 (by simp)
          · exact hih.2 fn2 c2 d2 hmem2 hres2

theorem fsIsFile_lookup {fs : FS} {p : FPath} (h : fsIsFile fs p = true) :
    ∃ x, fsLookup fs p = some (FSNode.file x) := by
  unfold fsIsFile at h
  cases hl : fsLookup fs p with
  | none => rw [hl] at h; simp at h
  | some nd =>
    cases nd with
    | dir => rw [hl] at h; simp at h
    | file x => exact ⟨x, rfl⟩

theorem fsIsFile_of_lookup {fs : FS} {p : FPath} {x : MemberData}
    (h : fsLookup fs p = some (FSNode.file x)) : fsIsFile fs p = true := by
  unfold fsIsFile
  rw [h]

theorem processMembers_logs_collision (ms : MemberList) :
    ∀ (mapping : Manifest) (pw an : String) (ok : RenameOracle) (st : ExtractState)
      (fn : String) (c : MemberData) (d : FPath),
    (fn, c) ∈ ms.toList → resolveDest mapping an fn = some d →
    fsIsFile st.fs d = true →
    (⟨an, fn, d⟩ : LogEntry) ∈ (processMembers mapping pw an ok st ms).log := by
  induction ms using memberListInduct with
  | h1 =>
    intro mapping pw an ok st fn c d hmem
    simp [MemberList.toList] at hmem
  | h2 fn0 c0 rest ih =>
    intro mapping pw an ok st fn c d hmem hres hfile
    rcases (by simpa [MemberList.toList] using hmem :
        (fn = fn0 ∧ c = c0) ∨ (fn, c) ∈ rest.toList) with ⟨rfl, rfl⟩ | hmem2
    · have hwf : write_file st.fs d c = (st.fs, false) := write_file_isFile st.fs d c hfile
      have hws : writeStep an st fn d c = ⟨st.fs, st.log ++ [⟨an, fn, d⟩]⟩ :=
        writeStep_fail an st fn d c st.fs hwf
      have he : processMembers mapping pw an ok st (.cons fn c rest) =
          processMembers mapping pw an ok ⟨st.fs, st.log ++ [⟨an, fn, d⟩]⟩ rest := by
        simp only [processMembers, hres]
        rw [hws]
      rw [he]
      exact (processMembers_extends rest mapping pw an ok _).2 _
        (List.mem_append_right _ (List.mem_singleton.mpr rfl))
    · obtain ⟨x, hx⟩ := fsIsFile_lookup hfile
      cases hres0 : resolveDest mapping an fn0 with
      | none =>
        have he : processMembers mapping pw an ok st (.cons fn0 c0 rest) =
            processMembers mapping pw an ok (extractContent c0 pw false fn0 ok st).1 rest := by
          simp [processMembers, hres0]
        rw [he]
        apply ih mapping pw an ok _ fn c d hmem2 hres
        exact fsIsFile_of_lookup
          ((extractContent_extends c0 pw fn0 ok st).1 d (FSNode.file x) hx)
      | some d0 =>
        have he : processMembers mapping pw an ok st (.cons fn0 c0 rest) =
            processMembers mapping pw an ok (writeStep an st fn0 d0 c0) rest := by
          simp [processMembers, hres0]
        rw [he]
        apply ih mapping pw an ok _ fn c d hmem2 hres
        exact fsIsFile_of_lookup ((writeStep_extends an st fn0 d0 c0).1 d (FSNode.file x) hx)

theorem parse_foldl_skip : ∀ (rows : List GetThisRow) (acc : Manifest) (key : String),
    (∀ r ∈ rows, normSlashes r.SampleName ≠ key) →
    mapLookup (rows.foldl
      (fun m row => (normSlashes row.SampleName, getthisDest row) :: m) acc) key
      = mapLookup acc key := by
  intro rows
  induction rows with
  | nil => intro acc key _; rfl
  | cons r rest ih =>
    intro acc key hk
    have hr : normSlashes r.SampleName ≠ key := hk r (List.mem_cons_self r rest)
    have hrest : ∀ r2 ∈ rest, normSlashes r2.SampleName ≠ key :=
      fun r2 h2 => hk r2 (List.mem_cons_of_mem r h2)
    simp only [List.foldl_cons]
    rw [ih _ key hrest]
    simp [mapLookup, hr]

theorem startsWith_slash_drop : ∀ (s : String),
    strStartsWith s "/" = true → s = "/" ++ strDrop s 1 := by
  intro s h
  rcases s with ⟨cs⟩
  cases cs with
  | nil => exact absurd h (by decide)
  | cons c rest =>
    have hdata : ("/" : String).data = [Char.ofNat 47] := rfl
    unfold strStartsWith at h
    rw [hdata] at h
    simp [List.isPrefixOf] at h
    subst h
    rfl

theorem extractContent_open_none (c : MemberData) (pw : String) (rv : Bool) (an : String)
    (ok : RenameOracle) (st : ExtractState) (h : openArchive c pw = none) :
    extractContent c pw rv an ok st = (st, .ok false) := by
  cases c with
  | arch pwOpt ms =>
    simp only [openArchive] at h
    by_cases hpw : pwMatches pwOpt pw
    · rw [hpw] at h; simp at h
    · have hpw2 : pwMatches pwOpt pw = false := by simpa using hpw
      simp [extractContent, hpw2]
  | raw s => rfl
  | manifest rows => rfl
  | volstats rows => rfl

theorem extractContent_open_some_norv (c : MemberData) (pw an : String)
    (ok : RenameOracle) (st : ExtractState) (ms : MemberList)
    (h : openArchive c pw = some ms) :
    extractContent c pw false an ok st =
      (processMembers (manifestOf ms) pw an ok st ms, .ok true) := by
  cases c with
  | arch pwOpt ms0 =>
    simp only [openArchive] at h
    by_cases hpw : pwMatches pwOpt pw
    · rw [hpw] at h
      simp only [if_true] at h
      injection h with h2
      subst h2
      simp [extractContent, hpw]
    · rw [(by simpa using hpw : pwMatches pwOpt pw = false)] at h
      simp at h
  | raw s => simp [openArchive] at h
  | manifest rows => simp [openArchive] at h
  | volstats rows => simp [openArchive] at h

theorem extractContent_open_some_rv (c : MemberData) (pw an : String)
    (ok : RenameOracle) (st : ExtractState) (ms : MemberList)
    (h : openArchive c pw = some ms) :
    extractContent c pw true an ok st =
      (⟨(rename_volumes ok (processMembers (manifestOf ms) pw an ok st ms).fs).1,
        (processMembers (manifestOf ms) pw an ok st ms).log⟩,
       if (rename_volumes ok (processMembers (manifestOf ms) pw an ok st ms).fs).2
       then .ok true else .exn) := by
  cases c with
  | arch pwOpt ms0 =>
    simp only [openArchive] at h
    by_cases hpw : pwMatches pwOpt pw
    · rw [hpw] at h
      simp only [if_true] at h
      injection h with h2
      subst h2
      simp [extractContent, hpw]
    · rw [(by simpa using hpw : pwMatches pwOpt pw = false)] at h
      simp at h
  | raw s => simp [openArchive] at h
  | manifest rows => simp [openArchive] at h
  | volstats rows => simp [openArchive] at h

/-! ### Claim theorems -/

/-- C1: for every manifest row, `_parse_getthis` normalizes SampleName and FullName by
replacing backslashes with forward slashes, drops the leading separator character of the
normalized FullName, computes the volume-root folder as VolumeID for the all-zero
SnapshotID and as "VolumeID (vss SnapshotID)" otherwise, and maps the normalized
SampleName to volumeRootFolder/relativeFullName; on the concrete §8 row, the member
sample1 with content "hello" ends up at destinationRoot/V1/Users/a.txt with content
"hello". -/
theorem c1_manifest_row_and_scenario (rows : List GetThisRow) (row : GetThisRow) :
    mapLookup (parse_getthis (rows ++ [row])) (normSlashes row.SampleName) =
      some (getthisDest row) ∧
    (strStartsWith (normSlashes row.FullName) "/" = true →
      normSlashes row.FullName = "/" ++ strDrop (normSlashes row.FullName) 1) ∧
    (row.SnapshotID = zeroSnapshot →
      root_folder_name row.VolumeID row.SnapshotID = row.VolumeID) ∧
    (row.SnapshotID ≠ zeroSnapshot →
      root_folder_name row.VolumeID row.SnapshotID =
        row.VolumeID ++ " (vss " ++ row.SnapshotID ++ ")") ∧
    getthisDest row = pathParts (root_folder_name row.VolumeID row.SnapshotID) ++
      pathParts (strDrop (normSlashes row.FullName) 1) ∧
    fsLookup (extract (.path "orc.7z" scenArchive) "" true "" okFresh ⟨[], []⟩).1.fs
      ["V1", "Users", "a.txt"] = some (.file (.raw "hello")) ∧
    (extract (.path "orc.7z" scenArchive) "" true "" okFresh ⟨[], []⟩).2 = .ok true := by
  refine ⟨?_, startsWith_slash_drop (normSlashes row.FullName), ?_, ?_, rfl, rfl, rfl⟩
  · have h1 : parse_getthis (rows ++ [row]) =
        (normSlashes row.SampleName, getthisDest row) :: parse_getthis rows := by
      unfold parse_getthis
      rw [List.foldl_append]
      rfl
    rw [h1]
    simp [mapLookup]
  · intro h
    simp [root_folder_name, h]
  · intro h
    simp [root_folder_name, h]

theorem c1_witness :
    mapLookup (parse_getthis ([] ++ [scenRow])) (normSlashes scenRow.SampleName) =
      some (getthisDest scenRow) ∧
    normSlashes scenRow.FullName = "/" ++ strDrop (normSlashes scenRow.FullName) 1 ∧
    root_folder_name scenRow.VolumeID scenRow.SnapshotID = scenRow.VolumeID :=
  ⟨(c1_manifest_row_and_scenario [] scenRow).1,
   (c1_manifest_row_and_scenario [] scenRow).2.1 (by decide),
   (c1_manifest_row_and_scenario [] scenRow).2.2.1 rfl⟩

/-- C2: the destination of a member is decided by the classification rules in source
priority order with first match winning: manifest mapping, then the .log suffix, then the
two well-known names (disambiguated under logs), then the .7z suffix (recursion, no file),
then the commands default; a member hitting the default rule whose write succeeds lands
under orc_outputs/commands with its exact bytes. -/
theorem c2_classification_priority (mapping : Manifest) (pw an fn : String)
    (c : MemberData) (ok : RenameOracle) (st : ExtractState) :
    (∀ rel, mapLookup mapping fn = some rel → resolveDest mapping an fn = some rel) ∧
    (mapLookup mapping fn = none → strEndsWith fn ".log" = true →
      resolveDest mapping an fn = some (["orc_outputs", "logs"] ++ pathParts fn)) ∧
    (mapLookup mapping fn = none → strEndsWith fn ".log" = false →
      (fn = "GetThis.csv" ∨ fn = "Statistics.json") →
      resolveDest mapping an fn =
        some (["orc_outputs", "logs"] ++ pathParts (strDropRight an 3 ++ "_" ++ fn))) ∧
    (mapLookup mapping fn = none → strEndsWith fn ".log" = false →
      ¬(fn = "GetThis.csv" ∨ fn = "Statistics.json") → strEndsWith fn ".7z" = true →
      resolveDest mapping an fn = none) ∧
    (mapLookup mapping fn = none → strEndsWith fn ".log" = false →
      ¬(fn = "GetThis.csv" ∨ fn = "Statistics.json") → strEndsWith fn ".7z" = false →
      resolveDest mapping an fn = some (["orc_outputs", "commands"] ++ pathParts fn)) ∧
    (∀ d, resolveDest mapping an fn = some d → (write_file st.fs d c).2 = true →
      fsLookup (processMembers mapping pw an ok st (.cons fn c .nil)).fs d =
        some (.file c)) := by
  refine ⟨?_, ?_, ?_, ?_, ?_, ?_⟩
  · intro rel h
    simp [resolveDest, h]
  · intro hm hl
    simp [resolveDest, hm, hl]
  · intro hm hl hw
    simp [resolveDest, hm, hl, hw]
  · intro hm hl hw h7
    simp [resolveDest, hm, hl, hw, h7]
  · intro hm hl hw h7
    simp [resolveDest, hm, hl, hw, h7]
  · intro d hres hw
    rcases hwf : write_file st.fs d c with ⟨fsw, r⟩
    rw [hwf] at hw
    simp only at hw
    subst hw
    have hws : writeStep an st fn d c = ⟨fsw, st.log⟩ := by
      unfold writeStep
      rw [hwf]
      simp
    have he : processMembers mapping pw an ok st (.cons fn c .nil) = ⟨fsw, st.log⟩ := by
      simp only [processMembers, hres]
      rw [hws]
    rw [he]
    exact write_file_true_lookup st.fs d c fsw hwf

theorem c2_witness :
    resolveDest [("a", ["V1", "x"])] "arch.7z" "a" = some ["V1", "x"] ∧
    resolveDest [("a", ["V1", "x"])] "arch.7z" "run.log" =
      some (["orc_outputs", "logs"] ++ pathParts "run.log") ∧
    resolveDest [("a", ["V1", "x"])] "arch.7z" "GetThis.csv" =
      some (["orc_outputs", "logs"] ++
        pathParts (strDropRight "arch.7z" 3 ++ "_" ++ "GetThis.csv")) ∧
    resolveDest [("a", ["V1", "x"])] "arch.7z" "inner.7z" = none ∧
    resolveDest [("a", ["V1", "x"])] "arch.7z" "cmd.txt" =
      some (["orc_outputs", "commands"] ++ pathParts "cmd.txt") ∧
    fsLookup (processMembers [("a", ["V1", "x"])] "" "arch.7z" okFresh ⟨[], []⟩
      (.cons "cmd.txt" (.raw "zz") .nil)).fs
      ["orc_outputs", "commands", "cmd.txt"] = some (.file (.raw "zz")) :=
  ⟨(c2_classification_priority [("a", ["V1", "x"])] "" "arch.7z" "a" (.raw "zz") okFresh
      ⟨[], []⟩).1 ["V1", "x"] (by decide),
   (c2_classification_priority [("a", ["V1", "x"])] "" "arch.7z" "run.log" (.raw "zz")
      okFresh ⟨[], []⟩).2.1 (by decide) (by decide),
   (c2_classification_priority [("a", ["V1", "x"])] "" "arch.7z" "GetThis.csv" (.raw "zz")
      okFresh ⟨[], []⟩).2.2.1 (by decide) (by decide) (Or.inl rfl),
   (c2_classification_priority [("a", ["V1", "x"])] "" "arch.7z" "inner.7z" (.raw "zz")
      okFresh ⟨[], []⟩).2.2.2.1 (by decide) (by decide) (by decide) (by decide),
   (c2_classification_priority [("a", ["V1", "x"])] "" "arch.7z" "cmd.txt" (.raw "zz")
      okFresh ⟨[], []⟩).2.2.2.2.1 (by decide) (by decide) (by decide) (by decide),
   (c2_classification_priority [("a", ["V1", "x"])] "" "arch.7z" "cmd.txt" (.raw "zz")
      okFresh ⟨[], []⟩).2.2.2.2.2 ["orc_outputs", "commands", "cmd.txt"] rfl rfl⟩

/-- C9: in `_parse_getthis`, a later row with the same normalized SampleName overwrites an
earlier one — the mapping holds exactly the destination computed from the last such row,
and duplicates are not an error (the fold is total). -/
theorem c9_last_duplicate_row_wins (rows1 : List GetThisRow) (row : GetThisRow)
    (rows2 : List GetThisRow) :
    (∀ r ∈ rows2, normSlashes r.SampleName ≠ normSlashes row.SampleName) →
    mapLookup (parse_getthis (rows1 ++ row :: rows2)) (normSlashes row.SampleName) =
      some (getthisDest row) := by
  intro h2
  unfold parse_getthis
  rw [List.foldl_append]
  simp only [List.foldl_cons]
  rw [parse_foldl_skip rows2 _ _ h2]
  simp [mapLookup]

theorem c9_witness :
    mapLookup (parse_getthis
        ([⟨"dup", "V1", zeroSnapshot, "\\a"⟩] ++
          (⟨"dup", "V2", zeroSnapshot, "\\b"⟩ : GetThisRow) :: []))
      (normSlashes (⟨"dup", "V2", zeroSnapshot, "\\b"⟩ : GetThisRow).SampleName) =
      some (getthisDest ⟨"dup", "V2", zeroSnapshot, "\\b"⟩) :=
  c9_last_duplicate_row_wins [⟨"dup", "V1", zeroSnapshot, "\\a"⟩]
    ⟨"dup", "V2", zeroSnapshot, "\\b"⟩ [] (by simp)

/-- C10: `_write_file` is total and never mutates a pre-existing entry at the
destination: an existing regular file makes it return False with the tree untouched, any
pre-existing entry (file or directory) survives unchanged with a False result, and every
entry present before the call is still present, unchanged, afterwards. -/
theorem c10_write_file_never_mutates (fs : FS) (p : FPath) (c : MemberData) :
    (fsIsFile fs p = true → write_file fs p c = (fs, false)) ∧
    (∀ q m, fsLookup fs q = some m → fsLookup (write_file fs p c).1 q = some m) ∧
    ((fsLookup fs p).isSome → (write_file fs p c).2 = false ∧
      fsLookup (write_file fs p c).1 p = fsLookup fs p) := by
  refine ⟨write_file_isFile fs p c, fun q m h => write_file_preserves fs p c q m h, ?_⟩
  intro hp
  cases hl : fsLookup fs p with
  | none => rw [hl] at hp; simp at hp
  | some nd =>
    have hkeep : fsLookup (write_file fs p c).1 p = some nd :=
      write_file_preserves fs p c p nd hl
    refine ⟨?_, by rw [hkeep]⟩
    cases nd with
    | file x =>
      rw [write_file_isFile fs p c (fsIsFile_of_lookup hl)]
    | dir =>
      rcases write_file_cases fs p c with ⟨hf, heq⟩ | ⟨fsm, hneg, hmk, heq⟩ |
        ⟨fsm, hneg, hmk, hl2, heq⟩ | ⟨fsm, hneg, hmk, hl2, heq⟩
      · unfold fsIsFile at hf
        rw [hl] at hf
        simp at hf
      · rw [heq]
      · rw [heq]
      · exfalso
        apply hl2
        have h2 := mkdirChain_lookup_notmem (ancestors p) fs p (self_not_mem_ancestors p)
        rw [hmk] at h2
        simp only at h2
        rw [h2, hl]

theorem c10_witness :
    write_file [(["f"], FSNode.file (.raw "x"))] ["f"] (.raw "y") =
      ([(["f"], FSNode.file (.raw "x"))], false) ∧
    fsLookup (write_file [(["f"], FSNode.file (.raw "x"))] ["f"] (.raw "y")).1 ["f"] =
      some (FSNode.file (.raw "x")) ∧
    (write_file [(["f"], FSNode.file (.raw "x"))] ["f"] (.raw "y")).2 = false :=
  ⟨(c10_write_file_never_mutates [(["f"], FSNode.file (.raw "x"))] ["f"] (.raw "y")).1 rfl,
   (c10_write_file_never_mutates [(["f"], FSNode.file (.raw "x"))] ["f"]
      (.raw "y")).2.1 ["f"] (FSNode.file (.raw "x")) rfl,
   ((c10_write_file_never_mutates [(["f"], FSNode.file (.raw "x"))] ["f"]
      (.raw "y")).2.2 rfl).1⟩

/-- C3: the member-write loop never overwrites an existing file: every file present when
the loop starts keeps its content; a member whose resolved destination is already a file
when the loop starts gets exactly its FailureLog line; any failed write of the head
member is likewise recorded; and the loop always continues with the remaining members
after recording a failure. -/
theorem c3_no_overwrite_policy (mapping : Manifest) (pw an : String) (ok : RenameOracle)
    (st : ExtractState) (ms : MemberList) :
    (∀ q cont, fsLookup st.fs q = some (.file cont) →
      fsLookup (processMembers mapping pw an ok st ms).fs q = some (.file cont)) ∧
    (∀ fn c d, (fn, c) ∈ ms.toList → resolveDest mapping an fn = some d →
      fsIsFile st.fs d = true →
      (⟨an, fn, d⟩ : LogEntry) ∈ (processMembers mapping pw an ok st ms).log) ∧
    (∀ fn c d rest, resolveDest mapping an fn = some d →
      (write_file st.fs d c).2 = false →
      (⟨an, fn, d⟩ : LogEntry) ∈
        (processMembers mapping pw an ok st (.cons fn c rest)).log) ∧
    (∀ fn c d rest, resolveDest mapping an fn = some d →
      processMembers mapping pw an ok st (.cons fn c rest) =
        processMembers mapping pw an ok (writeStep an st fn d c) rest) := by
  refine ⟨?_, ?_, ?_, ?_⟩
  · intro q cont h
    exact (processMembers_extends ms mapping pw an ok st).1 q (FSNode.file cont) h
  · intro fn c d hmem hres hfile
    exact processMembers_logs_collision ms mapping pw an ok st fn c d hmem hres hfile
  · intro fn c d rest hres hw
    rcases hwf : write_file st.fs d c with ⟨fsw, r⟩
    rw [hwf] at hw
    simp only at hw
    subst hw
    have hws : writeStep an st fn d c = ⟨fsw, st.log ++ [⟨an, fn, d⟩]⟩ :=
      writeStep_fail an st fn d c fsw hwf
    have he : processMembers mapping pw an ok st (.cons fn c rest) =
        processMembers mapping pw an ok ⟨fsw, st.log ++ [⟨an, fn, d⟩]⟩ rest := by
      simp only [processMembers, hres]
      rw [hws]
    rw [he]
    exact (processMembers_extends rest mapping pw an ok _).2 _
      (List.mem_append_right _ (List.mem_singleton.mpr rfl))
  · intro fn c d rest hres
    simp [processMembers, hres]

theorem c3_witness :
    (⟨"orc.7z", "sample1", ["V1", "Users", "a.txt"]⟩ : LogEntry) ∈
      (processMembers (parse_getthis [scenRow]) "" "orc.7z" okFresh
        ⟨[(["V1", "Users", "a.txt"], FSNode.file (.raw "old"))], []⟩
        (.cons "sample1" (.raw "hello") .nil)).log ∧
    fsLookup (processMembers (parse_getthis [scenRow]) "" "orc.7z" okFresh
        ⟨[(["V1", "Users", "a.txt"], FSNode.file (.raw "old"))], []⟩
        (.cons "sample1" (.raw "hello") .nil)).fs
      ["V1", "Users", "a.txt"] = some (.file (.raw "old")) :=
  ⟨(c3_no_overwrite_policy (parse_getthis [scenRow]) "" "orc.7z" okFresh
      ⟨[(["V1", "Users", "a.txt"], FSNode.file (.raw "old"))], []⟩
      (.cons "sample1" (.raw "hello") .nil)).2.1 "sample1" (.raw "hello")
      ["V1", "Users", "a.txt"] (List.mem_singleton.mpr rfl) rfl rfl,
   (c3_no_overwrite_policy (parse_getthis [scenRow]) "" "orc.7z" okFresh
      ⟨[(["V1", "Users", "a.txt"], FSNode.file (.raw "old"))], []⟩
      (.cons "sample1" (.raw "hello") .nil)).1 ["V1", "Users", "a.txt"] (.raw "old") rfl⟩

/-- C5: `extract` returns False exactly when the archive itself cannot be opened (the
Bad7zFile path, password retry included); with renaming disabled a container that opens
always yields True, member write failures notwithstanding; and a .7z-classified member
whose bytes are not a well-formed archive leaves the state untouched and traversal
continues — the recursive result is discarded. -/
theorem c5_return_value (src : Source) (pw : String) (rv : Bool) (an : String)
    (ok : RenameOracle) (st : ExtractState) :
    ((extract src pw rv an ok st).2 = .ok false ↔ openArchive (srcContent src) pw = none) ∧
    (rv = false → openArchive (srcContent src) pw ≠ none →
      (extract src pw rv an ok st).2 = .ok true) ∧
    (∀ (mapping : Manifest) (pw2 an2 : String) (ok2 : RenameOracle) (st2 : ExtractState)
      (fn bytes : String) (rest : MemberList), mapLookup mapping fn = none →
      strEndsWith fn ".log" = false → fn ≠ "GetThis.csv" → fn ≠ "Statistics.json" →
      strEndsWith fn ".7z" = true →
      processMembers mapping pw2 an2 ok2 st2 (.cons fn (.raw bytes) rest) =
        processMembers mapping pw2 an2 ok2 st2 rest) := by
  refine ⟨?_, ?_, ?_⟩
  · unfold extract
    cases hopen : openArchive (srcContent src) pw with
    | none =>
      rw [extractContent_open_none (srcContent src) pw rv (sourceName src an) ok st hopen]
      simp
    | some ms =>
      cases rv with
      | false =>
        rw [extractContent_open_some_norv (srcContent src) pw (sourceName src an) ok st
          ms hopen]
        simp
      | true =>
        rw [extractContent_open_some_rv (srcContent src) pw (sourceName src an) ok st
          ms hopen]
        cases hr : (rename_volumes ok
            (processMembers (manifestOf ms) pw (sourceName src an) ok st ms).fs).2 <;>
          simp [hr]
  · intro hrv hopen
    subst hrv
    cases hopen2 : openArchive (srcContent src) pw with
    | none => exact absurd hopen2 hopen
    | some ms =>
      unfold extract
      rw [extractContent_open_some_norv (srcContent src) pw (sourceName src an) ok st
        ms hopen2]
  · intro mapping pw2 an2 ok2 st2 fn bytes rest hm hl hG hS h7
    have hres : resolveDest mapping an2 fn = none := by
      simp [resolveDest, hm, hl, hG, hS, h7]
    have he : extractContent (.raw bytes) pw2 false fn ok2 st2 = (st2, .ok false) := rfl
    simp [processMembers, hres, he]

theorem c5_witness :
    (extract (.path "orc.7z" scenArchive) "" false "" okFresh ⟨[], []⟩).2 = .ok true ∧
    processMembers [] "" "outer.7z" okFresh ⟨[], []⟩
        (.cons "bad.7z" (.raw "junk") .nil) =
      processMembers [] "" "outer.7z" okFresh ⟨[], []⟩ .nil :=
  ⟨(c5_return_value (.path "orc.7z" scenArchive) "" false "" okFresh ⟨[], []⟩).2.1 rfl
      (by rw [show openArchive (srcContent (.path "orc.7z" scenArchive)) "" =
            some (.cons "GetThis.csv" (.manifest [scenRow])
              (.cons "sample1" (.raw "hello") .nil)) from rfl]
          simp),
   (c5_return_value (.path "orc.7z" scenArchive) "" false "" okFresh ⟨[], []⟩).2.2
      [] "" "outer.7z" okFresh ⟨[], []⟩ "bad.7z" "junk" .nil rfl (by decide) (by decide)
      (by decide) (by decide)⟩

/-- C6: a member whose name ends in .7z (and hits no earlier rule) is classified for
recursion: no file is written for it, and extraction recurses on the member bytes with
the same destination root and default password, renameVolumes = false, and the member
name as the archive name; in the §8 nested scenario the inner manifest-mapped file
appears in the tree and no commands/inner.7z file exists. -/
theorem c6_nested_container_recursion (mapping : Manifest) (pw an : String)
    (ok : RenameOracle) (st : ExtractState) (fn : String) (c : MemberData)
    (rest : MemberList) :
    (mapLookup mapping fn = none → strEndsWith fn ".log" = false →
      fn ≠ "GetThis.csv" → fn ≠ "Statistics.json" → strEndsWith fn ".7z" = true →
      resolveDest mapping an fn = none ∧
      processMembers mapping pw an ok st (.cons fn c rest) =
        processMembers mapping pw an ok (extract (.buffer c) pw false fn ok st).1 rest) ∧
    fsLookup (extract (.path "outer.7z" outerArchive) "" true "" okFresh ⟨[], []⟩).1.fs
      ["VX", "Windows", "b.txt"] = some (.file (.raw "bb")) ∧
    fsLookup (extract (.path "outer.7z" outerArchive) "" true "" okFresh ⟨[], []⟩).1.fs
      ["orc_outputs", "commands", "inner.7z"] = none := by
  refine ⟨?_, rfl, rfl⟩
  intro hm hl hG hS h7
  have hres : resolveDest mapping an fn = none := by
    simp [resolveDest, hm, hl, hG, hS, h7]
  refine ⟨hres, ?_⟩
  have hb : extract (.buffer c) pw false fn ok st = extractContent c pw false fn ok st :=
    rfl
  rw [hb]
  simp [processMembers, hres]

theorem c6_witness :
    resolveDest [] "outer.7z" "inner.7z" = none ∧
    processMembers [] "" "outer.7z" okFresh ⟨[], []⟩
        (.cons "inner.7z" innerArchive .nil) =
      processMembers [] "" "outer.7z" okFresh
        (extract (.buffer innerArchive) "" false "inner.7z" okFresh ⟨[], []⟩).1 .nil :=
  (c6_nested_container_recursion [] "" "outer.7z" okFresh ⟨[], []⟩ "inner.7z"
    innerArchive .nil).1 rfl (by decide) (by decide) (by decide) (by decide)

/-- C4 counterexample: with the volstats table of renameFs0 (rows for V1 and V2, each
matching one top-level folder) and an oracle failing only the V1 rename, the pass aborts
at the failure: V2 is left unrenamed (no D entry appears), although under a
fully-succeeding oracle the same V2 rename goes through — so the remaining rename was
not attempted, contradicting the claim. -/
theorem c4_counterexample :
    rename_volumes okFailV1 renameFs0 = (renameFs0, false) ∧
    fsLookup renameFs0 ["V2"] = some FSNode.dir ∧
    fsLookup renameFs0 ["D"] = none ∧
    (rename_volumes okAll renameFs0).2 = true ∧
    fsLookup (rename_volumes okAll renameFs0).1 ["D"] = some FSNode.dir :=
  ⟨rfl, rfl, rfl, rfl, rfl⟩

/-- C4 amended: `_rename_volumes` has no exception handler, so a failed rename is not
logged-and-skipped: it aborts the rest of the inner match loop, aborts the remaining
rows, and propagates out of `extract` as an escaped exception; renames performed before
the failure persist. -/
theorem c4_amended_rename_failure_aborts (ok : RenameOracle) :
    (∀ volId repl m rest fs, ok m (strReplace m volId repl) fs = false →
      renameMatches ok volId repl (m :: rest) fs = (fs, false)) ∧
    (∀ (r : VolStatsRow) rest fs, r.MountPoint ≠ "" →
      (renameMatches ok r.VolumeID (strTake r.MountPoint 1) (topMatches fs r.VolumeID)
        fs).2 = false →
      renameRows ok (r :: rest) fs =
        ((renameMatches ok r.VolumeID (strTake r.MountPoint 1) (topMatches fs r.VolumeID)
          fs).1, false)) ∧
    (∀ src pw an st ms, openArchive (srcContent src) pw = some ms →
      (rename_volumes ok
        (processMembers (manifestOf ms) pw (sourceName src an) ok st ms).fs).2 = false →
      (extract src pw true an ok st).2 = .exn) := by
  refine ⟨?_, ?_, ?_⟩
  · intro volId repl m rest fs h
    simp [renameMatches, h]
  · intro r rest fs hne hfail
    rcases hrm : renameMatches ok r.VolumeID (strTake r.MountPoint 1)
        (topMatches fs r.VolumeID) fs with ⟨fsr, b⟩
    rw [hrm] at hfail
    simp only at hfail
    subst hfail
    simp [renameRows, hne, hrm]
  · intro src pw an st ms hopen hfail
    unfold extract
    rw [extractContent_open_some_rv (srcContent src) pw (sourceName src an) ok st ms hopen]
    simp [hfail]

theorem c4_witness :
    renameMatches okFailV1 "V1" "C" ["V1"] renameFs0 = (renameFs0, false) ∧
    renameRows okFailV1 [⟨"V1", "C:"⟩, ⟨"V2", "D:"⟩] renameFs0 =
      ((renameMatches okFailV1 "V1" (strTake "C:" 1) (topMatches renameFs0 "V1")
        renameFs0).1, false) :=
  ⟨(c4_amended_rename_failure_aborts okFailV1).1 "V1" "C" "V1" [] renameFs0 rfl,
   (c4_amended_rename_failure_aborts okFailV1).2.1 ⟨"V1", "C:"⟩ [⟨"V2", "D:"⟩] renameFs0
     (by decide) rfl⟩

/-- C7 counterexample: after a first run of `extract` on idemArchive renamed volume V1 to
C, a second run against the same destination root is not an empty net effect: it writes
V1/Users/a.txt afresh (the path was empty after run one) and then the rename pass raises,
escaping `extract` as an exception. -/
theorem c7_counterexample :
    (extract (.path "orc.7z" idemArchive) "" true "" okFresh ⟨[], []⟩).2 = .ok true ∧
    fsLookup (extract (.path "orc.7z" idemArchive) "" true "" okFresh ⟨[], []⟩).1.fs
      ["V1", "Users", "a.txt"] = none ∧
    fsLookup (extract (.path "orc.7z" idemArchive) "" true "" okFresh ⟨[], []⟩).1.fs
      ["C", "Users", "a.txt"] = some (.file (.raw "hello")) ∧
    fsLookup (extract (.path "orc.7z" idemArchive) "" true "" okFresh
        (extract (.path "orc.7z" idemArchive) "" true "" okFresh ⟨[], []⟩).1).1.fs
      ["V1", "Users", "a.txt"] = some (.file (.raw "hello")) ∧
    (extract (.path "orc.7z" idemArchive) "" true "" okFresh
        (extract (.path "orc.7z" idemArchive) "" true "" okFresh ⟨[], []⟩).1).2 = .exn :=
  ⟨rfl, rfl, rfl, rfl, rfl⟩

/-- C7 amended: with volume renaming disabled, a second run of `extract` over the tree
left by a first run has an empty net effect on the tree: the tree is unchanged, the
returned result is the same, no file existing before the first run is ever overwritten,
and every member whose destination resolves is recorded as a collision in the second
run's failure log. -/
theorem c7_amended_idempotent_without_rename (src : Source) (pw an : String)
    (ok : RenameOracle) (st : ExtractState) (L : List LogEntry) :
    (extract src pw false an ok ⟨(extract src pw false an ok st).1.fs, L⟩).1.fs =
      (extract src pw false an ok st).1.fs ∧
    (extract src pw false an ok ⟨(extract src pw false an ok st).1.fs, L⟩).2 =
      (extract src pw false an ok st).2 ∧
    (∀ q cont, fsLookup st.fs q = some (.file cont) →
      fsLookup (extract src pw false an ok st).1.fs q = some (.file cont)) ∧
    (∀ ms, openArchive (srcContent src) pw = some ms →
      ∀ fn c d, (fn, c) ∈ ms.toList →
        resolveDest (manifestOf ms) (sourceName src an) fn = some d →
        (⟨sourceName src an, fn, d⟩ : LogEntry) ∈
          (extract src pw false an ok
            ⟨(extract src pw false an ok st).1.fs, L⟩).1.log) := by
  refine ⟨?_, ?_, ?_, ?_⟩
  · exact (idemAux (sizeOf (srcContent src))).1 (srcContent src) (Nat.le_refl _) pw
      (sourceName src an) ok st (extract src pw false an ok st).1.fs L
      (fun q m h => h)
  · unfold extract
    rw [extractContent_flag, extractContent_flag]
  · intro q cont h
    exact (extractContent_extends (srcContent src) pw (sourceName src an) ok st).1 q
      (FSNode.file cont) h
  · intro ms hopen fn c d hmem hres
    generalize hfs1 : (extract src pw false an ok st).1.fs = fs1
    have h2 : extract src pw false an ok ⟨fs1, L⟩ =
        (processMembers (manifestOf ms) pw (sourceName src an) ok ⟨fs1, L⟩ ms,
          .ok true) := by
      unfold extract
      rw [extractContent_open_some_norv (srcContent src) pw (sourceName src an) ok
        ⟨fs1, L⟩ ms hopen]
    rw [h2]
    simp only
    have hext : FSExt (processMembers (manifestOf ms) pw (sourceName src an) ok st ms).fs
        fs1 := by
      rw [← hfs1]
      unfold extract
      rw [extractContent_open_some_norv (srcContent src) pw (sourceName src an) ok st
        ms hopen]
      exact fun q m h => h
    exact ((idemAux (sizeOf ms)).2 ms (Nat.le_refl _) (manifestOf ms) pw
      (sourceName src an) ok st fs1 L hext).2 fn c d hmem hres

theorem c7_witness :
    (extract (.path "orc.7z" scenArchive) "" false "" okFresh
        ⟨(extract (.path "orc.7z" scenArchive) "" false "" okFresh ⟨[], []⟩).1.fs,
          []⟩).1.fs =
      (extract (.path "orc.7z" scenArchive) "" false "" okFresh ⟨[], []⟩).1.fs ∧
    (⟨"orc.7z", "sample1", ["V1", "Users", "a.txt"]⟩ : LogEntry) ∈
      (extract (.path "orc.7z" scenArchive) "" false "" okFresh
        ⟨(extract (.path "orc.7z" scenArchive) "" false "" okFresh ⟨[], []⟩).1.fs,
          []⟩).1.log :=
  ⟨(c7_amended_idempotent_without_rename (.path "orc.7z" scenArchive) "" "" okFresh
      ⟨[], []⟩ []).1,
   (c7_amended_idempotent_without_rename (.path "orc.7z" scenArchive) "" "" okFresh
      ⟨[], []⟩ []).2.2.2
     (.cons "GetThis.csv" (.manifest [scenRow]) (.cons "sample1" (.raw "hello") .nil))
     rfl "sample1" (.raw "hello") ["V1", "Users", "a.txt"]
     (List.mem_cons_of_mem _ (List.mem_singleton.mpr rfl)) rfl⟩

/-- C8 counterexample: for an archive named data.bin (a well-formed 7z under a name
whose extension is not three characters long), the code writes the GetThis.csv copy to
logs/"data._GetThis.csv" — archive_name with its last three characters stripped — not to
logs/<archiveBaseNameWithoutExtension>_GetThis.csv = logs/"data_GetThis.csv" as the
claim states. -/
theorem c8_counterexample :
    resolveDest [] "data.bin" "GetThis.csv" =
      some ["orc_outputs", "logs", "data._GetThis.csv"] ∧
    specBaseNameWithoutExtension "data.bin" = "data" ∧
    resolveDest [] "data.bin" "GetThis.csv" ≠
      some (["orc_outputs", "logs"] ++
        pathParts (specBaseNameWithoutExtension "data.bin" ++ "_" ++ "GetThis.csv")) := by
  refine ⟨rfl, rfl, ?_⟩
  decide

/-- C8 amended: for a non-mapped member named exactly GetThis.csv or Statistics.json the
destination is logs/<archiveName with its last three characters removed>_<memberName>;
in particular, whenever the archive name ends in ".7z" the stripped name coincides with
the base name without extension (for other names it may differ, as the data.bin
counterexample shows); the archive name used is the file name of a path source and the
caller-supplied archiveName for an in-memory buffer. -/
theorem c8_amended_strip_three (mapping : Manifest) (an fn : String) :
    (mapLookup mapping fn = none → (fn = "GetThis.csv" ∨ fn = "Statistics.json") →
      resolveDest mapping an fn =
        some (["orc_outputs", "logs"] ++ pathParts (strDropRight an 3 ++ "_" ++ fn))) ∧
    (strEndsWith an ".7z" = true →
      strDropRight an 3 = specBaseNameWithoutExtension an) ∧
    (∀ (nm : String) (d : MemberData) (a2 : String), sourceName (.path nm d) a2 = nm) ∧
    (∀ (d : MemberData) (a2 : String), sourceName (.buffer d) a2 = a2) := by
  refine ⟨?_, ?_, fun _ _ _ => rfl, fun _ _ => rfl⟩
  · intro hm hfn
    have hl : strEndsWith fn ".log" = false := by
      rcases hfn with rfl | rfl <;> decide
    simp [resolveDest, hm, hl, hfn]
  · intro h
    unfold strEndsWith at h
    rw [List.isSuffixOf_iff_suffix] at h
    obtain ⟨t, ht⟩ := h
    have hdata : (".7z" : String).data = [Char.ofNat 46, Char.ofNat 55, Char.ofNat 122] :=
      rfl
    rw [hdata] at ht
    unfold strDropRight specBaseNameWithoutExtension
    rw [← ht]
    have hcont : (t ++ [Char.ofNat 46, Char.ofNat 55, Char.ofNat 122]).contains
        (Char.ofNat 46) = true := by
      simp [List.contains]
    rw [if_pos hcont]
    have htake : (t ++ [Char.ofNat 46, Char.ofNat 55, Char.ofNat 122]).take
        ((t ++ [Char.ofNat 46, Char.ofNat 55, Char.ofNat 122]).length - 3) = t := by
      simp
    have hrev : ((t ++ [Char.ofNat 46, Char.ofNat 55, Char.ofNat 122]).reverse.dropWhile
        (fun c => c ≠ Char.ofNat 46)).drop 1 = t.reverse := by
      rw [List.reverse_append]
      simp [List.dropWhile_cons]
    rw [htake, hrev]
    simp

theorem c8_witness :
    resolveDest [] "arc.7z" "GetThis.csv" =
      some (["orc_outputs", "logs"] ++
        pathParts (strDropRight "arc.7z" 3 ++ "_" ++ "GetThis.csv")) ∧
    strDropRight "arc.7z" 3 = specBaseNameWithoutExtension "arc.7z" :=
  ⟨(c8_amended_strip_three [] "arc.7z" "GetThis.csv").1 rfl (Or.inl rfl),
   (c8_amended_strip_three [] "arc.7z" "GetThis.csv").2.1 (by decide)⟩
